import Mathlib

set_option maxRecDepth 100000

/-!
# Verification of the minifylet bookmarklet encoder

A shallow embedding of `src/minifylet/cli.py` over `List Char` and `String`.

The Python core is `minify_code(js_code, wrap)`: four `re.sub` passes
(single-line comments with a colon lookbehind, non-greedy multi-line
comments, whitespace collapse, whitespace removal around structural
punctuation), a `strip`, removal of a leading `javascript:` prefix,
optional wrapping in an IIFE, and `urllib.parse.quote` with a custom
safe-character set.

Each `re.sub` is embedded as a left-to-right scanner implementing the
leftmost, non-overlapping, single-pass match semantics of the Python
regex it translates; the scanners are structurally recursive so that
concrete runs reduce by `decide`.
-/

/-- The set of characters matched by Python's regex class for whitespace
on `str` patterns (also the set accepted by `str.strip` and
`str.isspace`): ASCII 9-13, 28-32, and the further Unicode
whitespace codepoints. -/
def pyIsSpace (c : Char) : Bool :=
  (9 ≤ c.toNat && c.toNat ≤ 13) || (28 ≤ c.toNat && c.toNat ≤ 32) ||
  c.toNat == 0x85 || c.toNat == 0xa0 || c.toNat == 0x1680 ||
  (0x2000 ≤ c.toNat && c.toNat ≤ 0x200a) ||
  c.toNat == 0x2028 || c.toNat == 0x2029 || c.toNat == 0x202f ||
  c.toNat == 0x205f || c.toNat == 0x3000

/-- The structural characters of step 4 of `minify_code`
(`cli.py` line 72): the character class of the regex. -/
def structuralChars : List Char := "\x7b\x7d()[]=+-*/;:,<>".toList

/-- Membership in the structural character class. -/
def isStructural (c : Char) : Bool := structuralChars.contains c

/-- The literal prefix `javascript:` (11 characters). -/
def jsPrefix : List Char := "javascript:".toList

/-- The text prepended by the wrap step (`cli.py` line 80). -/
def wrapPre : List Char := "void((function()\x7b".toList

/-- The text appended by the wrap step (`cli.py` line 80). -/
def wrapPost : List Char := "\x7d)())".toList

/-- `SAFE_CHARS` from `cli.py` lines 29-31: the characters
`chr(i)` for `i` in `range(33, 127)` that are not `%`, space or `#`. -/
def SAFE_CHARS : List Char :=
  (List.range' 33 94).filterMap (fun i =>
    let c := Char.ofNat i
    if c ∈ ['%', ' ', '#'] then none else some c)

/-- The characters `urllib.parse.quote` never escapes regardless of its
`safe` argument (`urllib.parse`, `_ALWAYS_SAFE`): ASCII letters, digits,
and `_.-~`. -/
def alwaysSafe : List Char :=
  "ABCDEFGHIJKLMNOPQRSTUVWXYZabcdefghijklmnopqrstuvwxyz0123456789_.-~".toList

/-! ## Step 1: `re.sub(r"(?<!:)//.*", "", js_code)` (`cli.py` line 63)

A left-to-right scan. A match starts at a pair of slashes whose
preceding character in the original text (`prev`) is not a colon, and
covers everything up to, but excluding, the next newline (Python's dot
does not match the newline). Scanning resumes at that newline, so while
`inComment` is set the scanner deletes characters until a newline. -/

/-- Scanner for step 1. `prev` is the character before the current
position in the original string (the regex lookbehind), `inComment`
true while inside a match being deleted. -/
def slcGo (prev : Option Char) (inComment : Bool) : List Char → List Char
  | [] => []
  | [c] =>
    if inComment then (if c = '\n' then [c] else []) else [c]
  | c :: c2 :: cs =>
    if inComment then
      if c = '\n' then c :: slcGo (some c) false (c2 :: cs)
      else slcGo (some c) true (c2 :: cs)
    else if c = '/' ∧ c2 = '/' ∧ prev ≠ some ':' then
      slcGo (some c2) true cs
    else c :: slcGo (some c) false (c2 :: cs)

/-! ## Step 2: `re.sub(r"/\*[\s\S]*?\*/", "", minified)` (`cli.py` line 66)

Non-greedy: a match runs from a `/*` to the first following `*/`. A
`/*` with no following `*/` matches nothing, and then no later
opener can match either, since any terminator for it would also have
terminated the earlier opener; the scanner therefore buffers the
characters after an opener and restores them verbatim when the input
ends before a terminator. -/

/-- Scanner for step 2. `buf = none`: outside a comment;
`buf = some b`: inside a candidate comment whose text so far
(opener included) is `b.reverse`. -/
def sbcGo (buf : Option (List Char)) : List Char → List Char
  | [] => (match buf with | none => [] | some b => b.reverse)
  | [c] => (match buf with | none => [c] | some b => b.reverse ++ [c])
  | c :: c2 :: cs =>
    match buf with
    | none =>
      if c = '/' ∧ c2 = '*' then sbcGo (some ['*', '/']) cs
      else c :: sbcGo none (c2 :: cs)
    | some b =>
      if c = '*' ∧ c2 = '/' then sbcGo none cs
      else sbcGo (some (c :: b)) (c2 :: cs)

/-! ## Step 3: `re.sub(r"\s+", " ", minified)` (`cli.py` line 69)

Each maximal run of whitespace becomes a single space. -/

/-- Scanner for step 3. `prevSpace` is true when the previous character
was whitespace (so the current run has already emitted its space). -/
def cwGo (prevSpace : Bool) : List Char → List Char
  | [] => []
  | c :: cs =>
    if pyIsSpace c then
      (if prevSpace then cwGo true cs else ' ' :: cwGo true cs)
    else c :: cwGo false cs

/-! ## Step 4: `re.sub(r"\s*([\{\}\(\)\[\]\=\+\-\*\/\;\:\,\<\>])\s*", r"\1", minified)`
(`cli.py` line 72)

Leftmost, non-overlapping, one pass. A match is: optional whitespace,
one structural character, optional (greedy) trailing whitespace; it is
replaced by the structural character alone. Whitespace not followed by
a structural character is kept. The scanner buffers a pending
whitespace run (`pending`, deleted if a structural character follows,
emitted otherwise) and deletes whitespace directly after a structural
character (`afterStruct`, the greedy trailing part of the match). -/

/-- Scanner for step 4. -/
def rsGo (afterStruct : Bool) (pending : List Char) : List Char → List Char
  | [] => pending
  | c :: cs =>
    if isStructural c then c :: rsGo true [] cs
    else if pyIsSpace c then
      (if afterStruct then rsGo true pending cs
       else rsGo false (pending ++ [c]) cs)
    else pending ++ (c :: rsGo false [] cs)

/-! ## `str.strip` -/

/-- Removal of trailing Python whitespace. -/
def pyStripRight (l : List Char) : List Char :=
  (l.reverse.dropWhile pyIsSpace).reverse

/-- Python's `str.strip()`: removal of leading and trailing whitespace. -/
def pyStrip (l : List Char) : List Char :=
  pyStripRight (l.dropWhile pyIsSpace)

/-! ## `urllib.parse.quote` -/

/-- The UTF-8 encoding of one character, as its list of byte values
(Python encodes the string to UTF-8 before percent-encoding). -/
def utf8Bytes (c : Char) : List Nat :=
  if c.toNat < 0x80 then [c.toNat]
  else if c.toNat < 0x800 then [0xC0 + c.toNat / 64, 0x80 + c.toNat % 64]
  else if c.toNat < 0x10000 then
    [0xE0 + c.toNat / 4096, 0x80 + (c.toNat / 64) % 64, 0x80 + c.toNat % 64]
  else
    [0xF0 + c.toNat / 262144, 0x80 + (c.toNat / 4096) % 64,
     0x80 + (c.toNat / 64) % 64, 0x80 + c.toNat % 64]

/-- An uppercase hexadecimal digit, as used by `urllib.parse.quote`. -/
def hexDigitU (n : Nat) : Char :=
  if n < 10 then Char.ofNat (48 + n) else Char.ofNat (55 + n)

/-- The three-character escape `%XX` of one byte. -/
def escByte (b : Nat) : List Char :=
  ['%', hexDigitU (b / 16), hexDigitU (b % 16)]

/-- `urllib.parse.quote` on one byte: kept as a literal character when
the byte is ASCII and in `_ALWAYS_SAFE` or in the `safe` argument,
escaped as `%XX` otherwise. -/
def quoteByte (safe : List Char) (b : Nat) : List Char :=
  if b < 128 then
    if alwaysSafe.contains (Char.ofNat b) || safe.contains (Char.ofNat b) then
      [Char.ofNat b]
    else escByte b
  else escByte b

/-- `urllib.parse.quote(s, safe)`: UTF-8 encode, then encode each byte. -/
def pyQuote (safe : List Char) (l : List Char) : List Char :=
  ((l.map utf8Bytes).flatten.map (quoteByte safe)).flatten

/-! ## `minify_code` (`cli.py` lines 57-86) -/

/-- The result of the four substitution passes (`cli.py` lines 63-72). -/
def minified4 (l : List Char) : List Char :=
  rsGo false [] (cwGo false (sbcGo none (slcGo none false l)))

/-- The state of `minified` after `minified.strip()` at `cli.py`
line 75. -/
def minifiedStripped (l : List Char) : List Char :=
  pyStrip (minified4 l)

/-- The state of `minified` after the prefix removal at `cli.py`
lines 76-77: a leading `javascript:` is dropped (11 characters). -/
def preBody (l : List Char) : List Char :=
  if jsPrefix.isPrefixOf (minifiedStripped l) then (minifiedStripped l).drop 11
  else minifiedStripped l

/-- The minified body actually percent-encoded: the optional wrap of
`cli.py` lines 79-80 followed by the `strip()` at line 85. -/
def minBody (l : List Char) (wrap : Bool) : List Char :=
  pyStrip (if wrap then wrapPre ++ preBody l ++ wrapPost else preBody l)

/-- `minify_code` over character lists: the `javascript:` prefix
followed by the quoted body (`cli.py` line 85). -/
def minifyCore (l : List Char) (wrap : Bool) : List Char :=
  jsPrefix ++ pyQuote SAFE_CHARS (minBody l wrap)

/-- `minify_code(js_code, wrap=True)` from `cli.py` lines 57-86. -/
def minify_code (s : String) (wrap : Bool := true) : String :=
  String.mk (minifyCore s.data wrap)

/-! ## `urllib.parse.unquote`, restricted to what the tool feeds it

`minify_bookmarklet` percent-decodes the bookmarklet body before the
syntax check (`cli.py` line 136). `unquote` turns each `%XX` with two
hexadecimal digits into a byte, leaves other text alone, and decodes
byte runs as UTF-8; over the ASCII-only output of `quote`, taking the
UTF-8 bytes of literal characters and decoding the whole byte string
is the same thing. -/

/-- Hexadecimal digit test (both cases), as `string.hexdigits`. -/
def isHexDigit (c : Char) : Bool :=
  if (48 ≤ c.toNat ∧ c.toNat ≤ 57) ∨ (65 ≤ c.toNat ∧ c.toNat ≤ 70) ∨
     (97 ≤ c.toNat ∧ c.toNat ≤ 102) then true else false

/-- Value of a hexadecimal digit. -/
def hexVal (c : Char) : Nat :=
  if c.toNat ≤ 57 then c.toNat - 48
  else if c.toNat ≤ 70 then c.toNat - 55
  else c.toNat - 87

/-- Percent-decoding to a byte string: each valid `%XX` becomes one
byte, an invalid `%` and every other character contribute their own
UTF-8 bytes. -/
def percentDecode : List Char → List Nat
  | [] => []
  | c :: h1 :: h2 :: rest =>
    if c = '%' ∧ isHexDigit h1 ∧ isHexDigit h2 then
      (16 * hexVal h1 + hexVal h2) :: percentDecode rest
    else utf8Bytes c ++ percentDecode (h1 :: h2 :: rest)
  | c :: cs => utf8Bytes c ++ percentDecode cs

/-- The Unicode replacement character, produced for invalid byte
sequences (Python decodes with errors set to replace). -/
def replChar : Char := Char.ofNat 0xFFFD

/-- Streaming UTF-8 decoder. `k` is the number of continuation bytes
still expected for the current sequence, `acc` the scalar value
accumulated so far (`k = 0` and `acc = 0` between sequences). A leader
byte starts a sequence; a valid continuation byte shifts it in; the
last one emits the character. Invalid input yields the replacement
character. -/
def utf8DecGo (k acc : Nat) : List Nat → List Char
  | [] => if k = 0 then [] else [replChar]
  | b :: bs =>
    if k = 0 then
      if b < 0x80 then Char.ofNat b :: utf8DecGo 0 0 bs
      else if b < 0xC0 then replChar :: utf8DecGo 0 0 bs
      else if b < 0xE0 then utf8DecGo 1 (b - 0xC0) bs
      else if b < 0xF0 then utf8DecGo 2 (b - 0xE0) bs
      else utf8DecGo 3 (b - 0xF0) bs
    else
      if 0x80 ≤ b ∧ b < 0xC0 then
        if k = 1 then Char.ofNat (acc * 64 + (b - 0x80)) :: utf8DecGo 0 0 bs
        else utf8DecGo (k - 1) (acc * 64 + (b - 0x80)) bs
      else
        -- the incomplete sequence is replaced and `b` restarts decoding
        replChar ::
          (if b < 0x80 then Char.ofNat b :: utf8DecGo 0 0 bs
           else if b < 0xC0 then replChar :: utf8DecGo 0 0 bs
           else if b < 0xE0 then utf8DecGo 1 (b - 0xC0) bs
           else if b < 0xF0 then utf8DecGo 2 (b - 0xE0) bs
           else utf8DecGo 3 (b - 0xF0) bs)

/-- A UTF-8 decoder over byte values. -/
def utf8Decode (bs : List Nat) : List Char := utf8DecGo 0 0 bs

/-- `urllib.parse.unquote` over the strings this tool produces. -/
def pyUnquote (s : String) : String :=
  String.mk (utf8Decode (percentDecode s.data))

/-- The percent-decoded body of a bookmarklet string: the characters
after the 11-character `javascript:` prefix, percent-decoded. -/
def decodedBody (s : String) : List Char :=
  utf8Decode (percentDecode (s.data.drop 11))

/-- Character-level view of the quoting step: a character in
`SAFE_CHARS` stands for itself, any other character for the uppercase
`%XX` escapes of its UTF-8 bytes. -/
def escC (c : Char) : List Char :=
  if SAFE_CHARS.contains c then [c] else ((utf8Bytes c).map escByte).flatten

/-! ## `minify_bookmarklet` (`cli.py` lines 125-167)

The orchestration, embedded as a pure function of the read outcome and
of the external syntax checker. Clipboard and console printing do not
touch the output file and are omitted. -/

/-- Outcome of reading the input file. -/
inductive ReadResult where
  | ok (content : String)
  | fileNotFound
  | ioError
deriving DecidableEq

/-- Observable outcome of a `minify_bookmarklet` run: the exit status
(`some 1` when `sys.exit(1)` is reached, `none` for a normal return)
and the content written to the output file (`none` when the output
file is never opened, so its prior contents are unchanged). -/
structure RunOutcome where
  exitCode : Option Nat
  written : Option String
deriving DecidableEq

/-- The string handed to the syntax checker (`cli.py` lines 134-138). -/
def codeToCheck (bookmarklet : String) : String :=
  if jsPrefix.isPrefixOf bookmarklet.data then
    pyUnquote (String.mk (bookmarklet.data.drop 11))
  else bookmarklet

/-- `minify_bookmarklet(input_file, output_file, ..., check_js, wrap)`
from `cli.py` lines 125-167, abstracted over the file-read outcome and
the external checker. A read failure exits 1; a failed syntax check
exits 1 before the output file is opened; otherwise the bookmarklet is
written. -/
def minify_bookmarklet (read : ReadResult) (check_js wrap : Bool)
    (checkSyntax : String → Bool) : RunOutcome :=
  match read with
  | .fileNotFound => ⟨some 1, none⟩
  | .ioError => ⟨some 1, none⟩
  | .ok js_code =>
    let bookmarklet := minify_code js_code wrap
    if check_js then
      if checkSyntax (codeToCheck bookmarklet) then ⟨none, some bookmarklet⟩
      else ⟨some 1, none⟩
    else ⟨none, some bookmarklet⟩

/-! ## Basic character facts -/

theorem char_isValid (c : Char) : Nat.isValidChar c.toNat := c.valid

theorem char_toNat_lt (c : Char) : c.toNat < 0x110000 := by
  rcases char_isValid c with h | ⟨h1, h2⟩ <;> omega

theorem toNat_ofNat_valid {n : Nat} (h : n.isValidChar) :
    (Char.ofNat n).toNat = n := by
  simp [Char.ofNat, h, Char.ofNatAux, Char.toNat, UInt32.toNat]

theorem toNat_ofNat_small {n : Nat} (h : n < 128) :
    (Char.ofNat n).toNat = n :=
  toNat_ofNat_valid (Or.inl (by omega))

theorem mk_data (l : List Char) : (String.mk l).data = l := rfl

/-! ## The quote-unquote round trip -/

theorem utf8Bytes_small {c : Char} (h : c.toNat < 128) :
    utf8Bytes c = [c.toNat] := by
  unfold utf8Bytes; rw [if_pos (by omega)]

theorem utf8Bytes_lt256 (c : Char) : ∀ b ∈ utf8Bytes c, b < 256 := by
  have := char_toNat_lt c
  unfold utf8Bytes
  split_ifs <;> intro b hb <;> simp at hb <;> omega

theorem utf8DecGo_cons (k acc b : Nat) (bs : List Nat) :
    utf8DecGo k acc (b :: bs) =
      (if k = 0 then
        if b < 0x80 then Char.ofNat b :: utf8DecGo 0 0 bs
        else if b < 0xC0 then replChar :: utf8DecGo 0 0 bs
        else if b < 0xE0 then utf8DecGo 1 (b - 0xC0) bs
        else if b < 0xF0 then utf8DecGo 2 (b - 0xE0) bs
        else utf8DecGo 3 (b - 0xF0) bs
      else
        if 0x80 ≤ b ∧ b < 0xC0 then
          if k = 1 then Char.ofNat (acc * 64 + (b - 0x80)) :: utf8DecGo 0 0 bs
          else utf8DecGo (k - 1) (acc * 64 + (b - 0x80)) bs
        else
          replChar ::
            (if b < 0x80 then Char.ofNat b :: utf8DecGo 0 0 bs
             else if b < 0xC0 then replChar :: utf8DecGo 0 0 bs
             else if b < 0xE0 then utf8DecGo 1 (b - 0xC0) bs
             else if b < 0xF0 then utf8DecGo 2 (b - 0xE0) bs
             else utf8DecGo 3 (b - 0xF0) bs)) := rfl

theorem decGo_ascii {b : Nat} (h : b < 0x80) (bs : List Nat) :
    utf8DecGo 0 0 (b :: bs) = Char.ofNat b :: utf8DecGo 0 0 bs := by
  rw [utf8DecGo_cons, if_pos rfl, if_pos h]

theorem decGo_lead2 {b : Nat} (h1 : 0xC0 ≤ b) (h2 : b < 0xE0) (bs : List Nat) :
    utf8DecGo 0 0 (b :: bs) = utf8DecGo 1 (b - 0xC0) bs := by
  rw [utf8DecGo_cons, if_pos rfl, if_neg (by omega), if_neg (by omega),
      if_pos h2]

theorem decGo_lead3 {b : Nat} (h1 : 0xE0 ≤ b) (h2 : b < 0xF0) (bs : List Nat) :
    utf8DecGo 0 0 (b :: bs) = utf8DecGo 2 (b - 0xE0) bs := by
  rw [utf8DecGo_cons, if_pos rfl, if_neg (by omega), if_neg (by omega),
      if_neg (by omega), if_pos h2]

theorem decGo_lead4 {b : Nat} (h1 : 0xF0 ≤ b) (bs : List Nat) :
    utf8DecGo 0 0 (b :: bs) = utf8DecGo 3 (b - 0xF0) bs := by
  rw [utf8DecGo_cons, if_pos rfl, if_neg (by omega), if_neg (by omega),
      if_neg (by omega), if_neg (by omega)]

theorem decGo_contFin {b : Nat} (acc : Nat) (h1 : 0x80 ≤ b) (h2 : b < 0xC0)
    (bs : List Nat) :
    utf8DecGo 1 acc (b :: bs) =
      Char.ofNat (acc * 64 + (b - 0x80)) :: utf8DecGo 0 0 bs := by
  rw [utf8DecGo_cons, if_neg (by omega), if_pos ⟨h1, h2⟩, if_pos rfl]

theorem decGo_contMid {k b : Nat} (acc : Nat) (hk0 : k ≠ 0) (hk1 : k ≠ 1)
    (h1 : 0x80 ≤ b) (h2 : b < 0xC0) (bs : List Nat) :
    utf8DecGo k acc (b :: bs) = utf8DecGo (k - 1) (acc * 64 + (b - 0x80)) bs := by
  rw [utf8DecGo_cons, if_neg hk0, if_pos ⟨h1, h2⟩, if_neg hk1]

theorem utf8Decode_encChar (c : Char) (bs : List Nat) :
    utf8DecGo 0 0 (utf8Bytes c ++ bs) = c :: utf8DecGo 0 0 bs := by
  have hval := char_isValid c
  have hlt := char_toNat_lt c
  unfold utf8Bytes
  split_ifs with h1 h2 h3
  · rw [List.singleton_append, decGo_ascii h1, Char.ofNat_toNat]
  · simp only [List.cons_append, List.nil_append]
    rw [decGo_lead2 (by omega) (by omega), decGo_contFin _ (by omega) (by omega)]
    congr 1
    rw [show (0xC0 + c.toNat / 64 - 0xC0) * 64 + (0x80 + c.toNat % 64 - 0x80) =
          c.toNat by omega, Char.ofNat_toNat]
  · simp only [List.cons_append, List.nil_append]
    rw [decGo_lead3 (by omega) (by omega),
        decGo_contMid _ (by omega) (by omega) (by omega) (by omega),
        decGo_contFin _ (by omega) (by omega)]
    congr 1
    rw [show ((0xE0 + c.toNat / 4096 - 0xE0) * 64 +
          (0x80 + c.toNat / 64 % 64 - 0x80)) * 64 +
          (0x80 + c.toNat % 64 - 0x80) = c.toNat by omega, Char.ofNat_toNat]
  · simp only [List.cons_append, List.nil_append]
    rw [decGo_lead4 (by omega),
        decGo_contMid _ (by omega) (by omega) (by omega) (by omega),
        decGo_contMid _ (by omega) (by omega) (by omega) (by omega),
        decGo_contFin _ (by omega) (by omega)]
    congr 1
    rw [show (((0xF0 + c.toNat / 262144 - 0xF0) * 64 +
          (0x80 + c.toNat / 4096 % 64 - 0x80)) * 64 +
          (0x80 + c.toNat / 64 % 64 - 0x80)) * 64 +
          (0x80 + c.toNat % 64 - 0x80) = c.toNat by omega, Char.ofNat_toNat]

theorem utf8Decode_encode (l : List Char) :
    utf8Decode ((l.map utf8Bytes).flatten) = l := by
  induction l with
  | nil => rfl
  | cons c cs ih =>
    simp only [List.map_cons, List.flatten_cons]
    show utf8DecGo 0 0 (utf8Bytes c ++ (cs.map utf8Bytes).flatten) = c :: cs
    rw [utf8Decode_encChar]
    exact congrArg (c :: ·) ih

theorem hexDigit_facts : ∀ m, m < 16 →
    isHexDigit (hexDigitU m) = true ∧ hexVal (hexDigitU m) = m := by decide

theorem percentDecode_not_pct {c : Char} (hc : c ≠ '%') (rest : List Char) :
    percentDecode (c :: rest) = utf8Bytes c ++ percentDecode rest := by
  match rest with
  | [] => rfl
  | [r] => rfl
  | r1 :: r2 :: rs =>
    show (if c = '%' ∧ isHexDigit r1 ∧ isHexDigit r2 then _ else _) = _
    rw [if_neg (by simp [hc])]

theorem percentDecode_escByte {b : Nat} (hb : b < 256) (rest : List Char) :
    percentDecode (escByte b ++ rest) = b :: percentDecode rest := by
  have hHi := hexDigit_facts (b / 16) (by omega)
  have hLo := hexDigit_facts (b % 16) (by omega)
  show (if ('%' : Char) = '%' ∧ isHexDigit (hexDigitU (b / 16)) ∧
        isHexDigit (hexDigitU (b % 16)) then _ else _) = _
  rw [if_pos ⟨rfl, hHi.1, hLo.1⟩, hHi.2, hLo.2]
  congr 1
  omega

theorem pct_not_safe :
    (alwaysSafe.contains '%' || SAFE_CHARS.contains '%') = false := by decide

theorem percentDecode_quoteByte {b : Nat} (hb : b < 256) (rest : List Char) :
    percentDecode (quoteByte SAFE_CHARS b ++ rest) = b :: percentDecode rest := by
  unfold quoteByte
  split_ifs with h1 h2
  · have hc : Char.ofNat b ≠ '%' := by
      intro e
      rw [e] at h2
      rw [pct_not_safe] at h2
      exact Bool.false_ne_true h2
    rw [List.singleton_append, percentDecode_not_pct hc,
        utf8Bytes_small (by rw [toNat_ofNat_small h1]; omega),
        toNat_ofNat_small h1, List.singleton_append]
  · exact percentDecode_escByte hb rest
  · exact percentDecode_escByte hb rest

theorem percentDecode_quoteBytes (B : List Nat) (hB : ∀ b ∈ B, b < 256) :
    percentDecode ((B.map (quoteByte SAFE_CHARS)).flatten) = B := by
  induction B with
  | nil => rfl
  | cons b bs ih =>
    simp only [List.map_cons, List.flatten_cons]
    rw [percentDecode_quoteByte (hB b (by simp))]
    rw [ih (fun x hx => hB x (by simp [hx]))]

theorem decode_quote (l : List Char) :
    utf8Decode (percentDecode (pyQuote SAFE_CHARS l)) = l := by
  unfold pyQuote
  rw [percentDecode_quoteBytes _ (by
    intro b hb
    simp only [List.mem_flatten, List.mem_map] at hb
    obtain ⟨bl, ⟨c, _, rfl⟩, hbl⟩ := hb
    exact utf8Bytes_lt256 c b hbl)]
  exact utf8Decode_encode l

/-- Percent-decoding the output of `minify_code` and removing the
prefix recovers exactly the minified body that was quoted. -/
theorem decodedBody_minify (s : String) (w : Bool) :
    decodedBody (minify_code s w) = minBody s.data w := by
  unfold decodedBody minify_code minifyCore
  rw [mk_data, show (11 : Nat) = jsPrefix.length from rfl, List.drop_left]
  exact decode_quote _

/-! ## The safe-character set -/

theorem char_ne_iff_toNat_ne (a b : Char) : a ≠ b ↔ a.toNat ≠ b.toNat := by
  constructor
  · intro h e
    exact h (by rw [← Char.ofNat_toNat a, e, Char.ofNat_toNat])
  · intro h e
    exact h (by rw [e])

theorem SAFE_CHARS_toNat : SAFE_CHARS.map Char.toNat =
    [33, 34, 36, 38, 39, 40, 41, 42, 43, 44, 45, 46, 47, 48, 49, 50, 51, 52,
     53, 54, 55, 56, 57, 58, 59, 60, 61, 62, 63, 64, 65, 66, 67, 68, 69, 70,
     71, 72, 73, 74, 75, 76, 77, 78, 79, 80, 81, 82, 83, 84, 85, 86, 87, 88,
     89, 90, 91, 92, 93, 94, 95, 96, 97, 98, 99, 100, 101, 102, 103, 104,
     105, 106, 107, 108, 109, 110, 111, 112, 113, 114, 115, 116, 117, 118,
     119, 120, 121, 122, 123, 124, 125, 126] := by decide

theorem mem_SAFE_CHARS_iff_toNat (c : Char) :
    c ∈ SAFE_CHARS ↔ c.toNat ∈ SAFE_CHARS.map Char.toNat := by
  constructor
  · exact fun h => List.mem_map_of_mem Char.toNat h
  · intro h
    obtain ⟨a, ha, e⟩ := List.mem_map.mp h
    have : a = c := by rw [← Char.ofNat_toNat a, e, Char.ofNat_toNat]
    exact this ▸ ha

/-! ## Character-level view of the quoting step -/

theorem alwaysSafe_subset_SAFE : ∀ c ∈ alwaysSafe, c ∈ SAFE_CHARS := by decide

theorem safe_lt128 : ∀ c ∈ SAFE_CHARS, c.toNat < 128 := by decide

theorem utf8Bytes_ge128 {c : Char} (h : 128 ≤ c.toNat) :
    ∀ b ∈ utf8Bytes c, 128 ≤ b := by
  unfold utf8Bytes
  split_ifs <;> intro b hb <;> simp at hb <;> omega

theorem quoteChar_escC (c : Char) :
    ((utf8Bytes c).map (quoteByte SAFE_CHARS)).flatten = escC c := by
  unfold escC
  by_cases h : SAFE_CHARS.contains c
  · have hmem : c ∈ SAFE_CHARS := List.elem_iff.mp h
    have hlt : c.toNat < 128 := safe_lt128 c hmem
    rw [if_pos h, utf8Bytes_small hlt]
    show (quoteByte SAFE_CHARS c.toNat) ++ [].flatten = [c]
    unfold quoteByte
    rw [if_pos hlt, Char.ofNat_toNat, if_pos (by rw [h, Bool.or_true]),
        List.flatten_nil, List.append_nil]
  · rw [if_neg h]
    by_cases hlt : c.toNat < 128
    · rw [utf8Bytes_small hlt]
      show (quoteByte SAFE_CHARS c.toNat) ++ [].flatten = _
      unfold quoteByte
      have halw : alwaysSafe.contains c = false := by
        cases halw : alwaysSafe.contains c with
        | false => rfl
        | true =>
          have : c ∈ SAFE_CHARS := alwaysSafe_subset_SAFE c (List.elem_iff.mp halw)
          exact absurd (List.elem_iff.mpr this) h
      have h' : SAFE_CHARS.contains c = false := by simpa using h
      rw [if_pos hlt, Char.ofNat_toNat, halw, h']
      rfl
    · have : (utf8Bytes c).map (quoteByte SAFE_CHARS) = (utf8Bytes c).map escByte := by
        apply List.map_congr_left
        intro b hb
        have : 128 ≤ b := utf8Bytes_ge128 (by omega) b hb
        unfold quoteByte
        rw [if_neg (by omega)]
      rw [this]

theorem pyQuote_escC (l : List Char) :
    pyQuote SAFE_CHARS l = (l.map escC).flatten := by
  unfold pyQuote
  induction l with
  | nil => rfl
  | cons c cs ih =>
    simp only [List.map_cons, List.flatten_cons, List.map_append,
      List.flatten_append]
    rw [quoteChar_escC, ih]

/-! ## Facts about `pyStrip` -/

theorem dropWhile_cons_false {c : Char} (h : pyIsSpace c = false)
    (l : List Char) : (c :: l).dropWhile pyIsSpace = c :: l := by
  rw [List.dropWhile_cons, if_neg (by simp [h])]

theorem pyStripRight_eq_self {l : List Char}
    (h : ∀ c ∈ l.getLast?, pyIsSpace c = false) : pyStripRight l = l := by
  unfold pyStripRight
  match hr : l.reverse with
  | [] =>
    have : l = [] := by simpa using congrArg List.reverse hr
    simp [this]
  | c :: cs =>
    have hc : l.getLast? = some c := by rw [← List.head?_reverse, hr]; rfl
    rw [dropWhile_cons_false (h c (by rw [hc]; rfl)), ← hr,
        List.reverse_reverse]

theorem pyStrip_eq_self {l : List Char}
    (h1 : ∀ c ∈ l.head?, pyIsSpace c = false)
    (h2 : ∀ c ∈ l.getLast?, pyIsSpace c = false) : pyStrip l = l := by
  unfold pyStrip
  have : l.dropWhile pyIsSpace = l := by
    match l with
    | [] => rfl
    | c :: cs => exact dropWhile_cons_false (h1 c rfl) cs
  rw [this]
  exact pyStripRight_eq_self h2

theorem stripRight_prefix_self (l : List Char) : pyStripRight l <+: l := by
  unfold pyStripRight
  conv_rhs => rw [← List.reverse_reverse l]
  exact List.reverse_prefix.mpr (List.dropWhile_suffix pyIsSpace)

theorem strip_infix_self (l : List Char) : pyStrip l <:+: l := by
  unfold pyStrip
  exact ((stripRight_prefix_self _).isInfix).trans
    (List.dropWhile_suffix pyIsSpace).isInfix

theorem head_pyStrip_not_space (l : List Char) :
    ∀ c ∈ (pyStrip l).head?, pyIsSpace c = false := by
  intro c hc
  unfold pyStrip at hc
  obtain ⟨t, ht⟩ := stripRight_prefix_self (l.dropWhile pyIsSpace)
  have hd := List.head?_dropWhile_not pyIsSpace l
  match hm : (pyStripRight (l.dropWhile pyIsSpace)).head? with
  | none => rw [hm] at hc; exact absurd hc (by simp)
  | some d =>
    rw [hm] at hc
    have hcd : d = c := by simpa using hc
    have : (l.dropWhile pyIsSpace).head? = some d := by
      rw [← ht]
      match hx : pyStripRight (l.dropWhile pyIsSpace), hm with
      | x :: xs, hm' =>
        simp at hm'
        simp [hm']
    rw [this] at hd
    rw [← hcd]
    exact hd

theorem getLast_pyStrip_not_space (l : List Char) :
    ∀ c ∈ (pyStrip l).getLast?, pyIsSpace c = false := by
  intro c hc
  unfold pyStrip pyStripRight at hc
  rw [← List.head?_reverse, List.reverse_reverse] at hc
  have hd := List.head?_dropWhile_not pyIsSpace (l.dropWhile pyIsSpace).reverse
  match hm : ((l.dropWhile pyIsSpace).reverse.dropWhile pyIsSpace).head? with
  | none => rw [hm] at hc; exact absurd hc (by simp)
  | some d =>
    rw [hm] at hc
    have hcd : d = c := by simpa using hc
    rw [hm] at hd
    rw [← hcd]
    exact hd

theorem pyStrip_idem (l : List Char) : pyStrip (pyStrip l) = pyStrip l :=
  pyStrip_eq_self (head_pyStrip_not_space l) (getLast_pyStrip_not_space l)

/-! ## Controlled unfolding equations for the scanners -/

theorem slcGo_false_two (prev : Option Char) (c c2 : Char) (cs : List Char) :
    slcGo prev false (c :: c2 :: cs) =
      (if c = '/' ∧ c2 = '/' ∧ prev ≠ some ':' then slcGo (some c2) true cs
       else c :: slcGo (some c) false (c2 :: cs)) := rfl

theorem sbcGo_none_two (c c2 : Char) (cs : List Char) :
    sbcGo none (c :: c2 :: cs) =
      (if c = '/' ∧ c2 = '*' then sbcGo (some ['*', '/']) cs
       else c :: sbcGo none (c2 :: cs)) := rfl

theorem cwGo_cons_eq (b : Bool) (c : Char) (cs : List Char) :
    cwGo b (c :: cs) =
      (if pyIsSpace c then
        (if b then cwGo true cs else ' ' :: cwGo true cs)
      else c :: cwGo false cs) := rfl

theorem rsGo_cons_eq (a : Bool) (p : List Char) (c : Char) (cs : List Char) :
    rsGo a p (c :: cs) =
      (if isStructural c then c :: rsGo true [] cs
       else if pyIsSpace c then
         (if a then rsGo true p cs else rsGo false (p ++ [c]) cs)
       else p ++ (c :: rsGo false [] cs)) := rfl

theorem slcGo_cons_nonslash {c : Char} (hc : c ≠ '/') (prev : Option Char)
    (l : List Char) : slcGo prev false (c :: l) = c :: slcGo (some c) false l := by
  match l with
  | [] => rfl
  | d :: ds =>
    rw [slcGo_false_two, if_neg (by simp [hc])]

theorem sbcGo_cons_nonslash {c : Char} (hc : c ≠ '/') (l : List Char) :
    sbcGo none (c :: l) = c :: sbcGo none l := by
  match l with
  | [] => rfl
  | d :: ds =>
    rw [sbcGo_none_two, if_neg (by simp [hc])]

theorem cwGo_cons_nonspace {c : Char} (hc : pyIsSpace c = false) (b : Bool)
    (l : List Char) : cwGo b (c :: l) = c :: cwGo false l := by
  rw [cwGo_cons_eq, if_neg (by simp [hc])]

theorem rsGo_cons_struct {c : Char} (hc : isStructural c = true) (a : Bool)
    (p l : List Char) : rsGo a p (c :: l) = c :: rsGo true [] l := by
  rw [rsGo_cons_eq, if_pos hc]

theorem rsGo_cons_plain {c : Char} (h1 : isStructural c = false)
    (h2 : pyIsSpace c = false) (a : Bool) (p l : List Char) :
    rsGo a p (c :: l) = p ++ (c :: rsGo false [] l) := by
  rw [rsGo_cons_eq, if_neg (by simp [h1]), if_neg (by simp [h2])]

theorem rsGo_cons_space_false {c : Char} (h1 : isStructural c = false)
    (h2 : pyIsSpace c = true) (p l : List Char) :
    rsGo false p (c :: l) = rsGo false (p ++ [c]) l := by
  rw [rsGo_cons_eq, if_neg (by simp [h1]), if_pos h2, if_neg (by simp)]

theorem rsGo_cons_space_true {c : Char} (h1 : isStructural c = false)
    (h2 : pyIsSpace c = true) (p l : List Char) :
    rsGo true p (c :: l) = rsGo true p l := by
  rw [rsGo_cons_eq, if_neg (by simp [h1]), if_pos h2, if_pos rfl]

/-! ## Scanning across the javascript: prefix -/

/-- The lookbehind state after a benign prefix: the last character of
the prefix, or the starting state for an empty prefix. -/
def lastPrev (prev : Option Char) : List Char → Option Char
  | [] => prev
  | c :: cs => lastPrev (some c) cs

theorem slcGo_append {u : List Char} (hu : ∀ c ∈ u, c ≠ '/') :
    ∀ (prev : Option Char) (X : List Char),
      slcGo prev false (u ++ X) = u ++ slcGo (lastPrev prev u) false X := by
  induction u with
  | nil => intro prev X; rfl
  | cons c u' ih =>
    intro prev X
    rw [List.cons_append, slcGo_cons_nonslash (hu c (by simp)),
        ih (fun d hd => hu d (by simp [hd])) (some c)]
    rfl

theorem slcGo_colon_eq {X : List Char} (h : ¬ ['/', '/'] <+: X) :
    slcGo (some ':') false X = slcGo none false X := by
  match X with
  | [] => rfl
  | [c] => rfl
  | c :: c2 :: cs =>
    have hcc : ¬ (c = '/' ∧ c2 = '/') := by
      rintro ⟨rfl, rfl⟩
      exact h ⟨cs, rfl⟩
    rw [slcGo_false_two, slcGo_false_two,
        if_neg (fun ⟨e1, e2, _⟩ => hcc ⟨e1, e2⟩),
        if_neg (fun ⟨e1, e2, _⟩ => hcc ⟨e1, e2⟩)]

theorem sbcGo_append {u : List Char} (hu : ∀ c ∈ u, c ≠ '/') :
    ∀ X : List Char, sbcGo none (u ++ X) = u ++ sbcGo none X := by
  induction u with
  | nil => intro X; rfl
  | cons c u' ih =>
    intro X
    rw [List.cons_append, sbcGo_cons_nonslash (hu c (by simp)),
        ih (fun d hd => hu d (by simp [hd]))]
    rfl

theorem cwGo_append {u : List Char} (hu : ∀ c ∈ u, pyIsSpace c = false)
    (hne : u ≠ []) (b : Bool) (X : List Char) :
    cwGo b (u ++ X) = u ++ cwGo false X := by
  induction u generalizing b with
  | nil => exact absurd rfl hne
  | cons c u' ih =>
    rw [List.cons_append, cwGo_cons_nonspace (hu c (by simp))]
    cases u' with
    | nil => rfl
    | cons d ds =>
      rw [ih (fun e he => hu e (by simp [he])) (by simp) false]
      rfl

theorem rsGo_append_plain {u : List Char}
    (hu : ∀ c ∈ u, isStructural c = false ∧ pyIsSpace c = false)
    (hne : u ≠ []) (a : Bool) (p X : List Char) :
    rsGo a p (u ++ X) = p ++ u ++ rsGo false [] X := by
  induction u generalizing a p with
  | nil => exact absurd rfl hne
  | cons c u' ih =>
    rw [List.cons_append,
        rsGo_cons_plain (hu c (by simp)).1 (hu c (by simp)).2]
    cases u' with
    | nil => simp
    | cons d ds =>
      rw [ih (fun e he => hu e (by simp [he])) (by simp) false []]
      simp

theorem space_not_struct {c : Char} (h : pyIsSpace c = true) :
    isStructural c = false := by
  have hall : ∀ d ∈ structuralChars, pyIsSpace d = false := by decide
  cases hs : isStructural c with
  | false => rfl
  | true =>
    have := hall c (List.elem_iff.mp hs)
    rw [h] at this
    exact absurd this (by simp)

theorem struct_not_space {c : Char} (h : isStructural c = true) :
    pyIsSpace c = false := by
  cases hs : pyIsSpace c with
  | false => rfl
  | true => rw [space_not_struct hs] at h; exact absurd h (by simp)

/-- The greedy trailing whitespace of a step-4 match: running the
scanner in the after-structural state is the same as dropping the
leading whitespace of a run from the plain state. -/
theorem rsGo_true_eq_dropWhile :
    ∀ (W p : List Char), (∀ x ∈ p, pyIsSpace x = true) →
      (rsGo false p W).dropWhile pyIsSpace = rsGo true [] W := by
  intro W
  induction W with
  | nil =>
    intro p hp
    show p.dropWhile pyIsSpace = []
    exact List.dropWhile_eq_nil_iff.mpr fun x hx => by simp [hp x hx]
  | cons c cs ih =>
    intro p hp
    by_cases hs : isStructural c
    · rw [rsGo_cons_struct hs, rsGo_cons_struct hs,
          dropWhile_cons_false (struct_not_space hs)]
    · have hs' : isStructural c = false := by simpa using hs
      by_cases hsp : pyIsSpace c
      · rw [rsGo_cons_space_false hs' hsp, rsGo_cons_space_true hs' hsp]
        exact ih (p ++ [c]) (by
          intro x hx
          rcases List.mem_append.mp hx with h | h
          · exact hp x h
          · simp at h; rw [h]; exact hsp)
      · have hsp' : pyIsSpace c = false := by simpa using hsp
        rw [rsGo_cons_plain hs' hsp', rsGo_cons_plain hs' hsp',
            List.dropWhile_append]
        have : (p.dropWhile pyIsSpace).isEmpty = true := by
          rw [List.isEmpty_iff]
          exact List.dropWhile_eq_nil_iff.mpr fun x hx => by simp [hp x hx]
        rw [if_pos this, dropWhile_cons_false hsp', List.nil_append]

/-! ## The pipeline on a javascript:-prefixed input -/

theorem slc_js (X : List Char) (h : ¬ ['/', '/'] <+: X) :
    slcGo none false (jsPrefix ++ X) = jsPrefix ++ slcGo none false X := by
  rw [slcGo_append (by decide) none X,
      show lastPrev none jsPrefix = some ':' from rfl, slcGo_colon_eq h]

theorem sbc_js (X : List Char) :
    sbcGo none (jsPrefix ++ X) = jsPrefix ++ sbcGo none X :=
  sbcGo_append (by decide) X

theorem cw_js (X : List Char) :
    cwGo false (jsPrefix ++ X) = jsPrefix ++ cwGo false X :=
  cwGo_append (by decide) (by decide) false X

theorem rs_js (X : List Char) :
    rsGo false [] (jsPrefix ++ X) = jsPrefix ++ rsGo true [] X := by
  have e : jsPrefix ++ X = "javascript".toList ++ (':' :: X) := rfl
  rw [e, rsGo_append_plain (by decide) (by decide) false [],
      rsGo_cons_struct (by decide)]
  rfl

theorem pyStripRight_append_js (Q : List Char) :
    pyStripRight (jsPrefix ++ Q) = jsPrefix ++ pyStripRight Q := by
  unfold pyStripRight
  rw [List.reverse_append, List.dropWhile_append]
  split_ifs with h
  · have hq : Q.reverse.dropWhile pyIsSpace = [] := List.isEmpty_iff.mp h
    rw [hq, show jsPrefix.reverse.dropWhile pyIsSpace = jsPrefix.reverse from
        by decide, List.reverse_reverse, List.reverse_nil, List.append_nil]
  · rw [List.reverse_append, List.reverse_reverse]

theorem pyStrip_append_js (Q : List Char) :
    pyStrip (jsPrefix ++ Q) = jsPrefix ++ pyStripRight Q := by
  unfold pyStrip
  rw [show jsPrefix ++ Q = 'j' :: ("avascript:".toList ++ Q) from rfl,
      dropWhile_cons_false (by decide),
      show 'j' :: ("avascript:".toList ++ Q) = jsPrefix ++ Q from rfl,
      pyStripRight_append_js]

/-- The minified, stripped text of a `javascript:`-prefixed source, when
the source does not begin with two slashes: the prefix survives the
four passes untouched and the remainder minifies as it would alone. -/
theorem minifiedStripped_js (X : List Char) (h : ¬ ['/', '/'] <+: X) :
    minifiedStripped (jsPrefix ++ X) = jsPrefix ++ minifiedStripped X := by
  unfold minifiedStripped minified4
  rw [slc_js X h, sbc_js, cw_js, rs_js, pyStrip_append_js,
      ← rsGo_true_eq_dropWhile _ [] (by simp)]
  rfl

theorem preBody_js (X : List Char) (h1 : ¬ ['/', '/'] <+: X)
    (h2 : ¬ jsPrefix <+: minifiedStripped X) :
    preBody (jsPrefix ++ X) = preBody X := by
  unfold preBody
  rw [minifiedStripped_js X h1,
      if_pos (List.isPrefixOf_iff_prefix.mpr (List.prefix_append _ _)),
      if_neg (fun hh => h2 (List.isPrefixOf_iff_prefix.mp hh)),
      show (11 : Nat) = jsPrefix.length from rfl, List.drop_left]

/-! ## Structural characters are never followed by whitespace in the
output of step 4 -/

/-- The invariant relation: a structural character is never directly
followed by a whitespace character. -/
def noSpaceAfterStruct (a b : Char) : Prop :=
  isStructural a = true → pyIsSpace b = false

theorem chain_spaces {p : List Char} (hp : ∀ x ∈ p, pyIsSpace x = true) :
    List.Chain' noSpaceAfterStruct p := by
  induction p with
  | nil => exact List.chain'_nil
  | cons c cs ih =>
    refine List.chain'_cons'.mpr ⟨fun y _ hstr => ?_, ih fun x hx => hp x (by simp [hx])⟩
    rw [space_not_struct (hp c (by simp))] at hstr
    exact absurd hstr (by simp)

theorem rsGo_true_head (cs : List Char) :
    ∀ h ∈ (rsGo true [] cs).head?, pyIsSpace h = false := by
  intro h hh
  rw [← rsGo_true_eq_dropWhile cs [] (by simp)] at hh
  have hd := List.head?_dropWhile_not pyIsSpace (rsGo false [] cs)
  match hm : ((rsGo false [] cs).dropWhile pyIsSpace).head? with
  | none => rw [hm] at hh; exact absurd hh (by simp)
  | some d =>
    rw [hm] at hh hd
    have : d = h := by simpa using hh
    rw [← this]
    exact hd

theorem rsGo_chain : ∀ l : List Char,
    (∀ p, (∀ x ∈ p, pyIsSpace x = true) →
      List.Chain' noSpaceAfterStruct (rsGo false p l)) ∧
    List.Chain' noSpaceAfterStruct (rsGo true [] l) := by
  intro l
  induction l with
  | nil =>
    exact ⟨fun p hp => chain_spaces hp, List.chain'_nil⟩
  | cons c cs ih =>
    obtain ⟨ihf, iht⟩ := ih
    by_cases hs : isStructural c
    · have key : List.Chain' noSpaceAfterStruct (c :: rsGo true [] cs) :=
        List.chain'_cons'.mpr ⟨fun y hy _ => rsGo_true_head cs y hy, iht⟩
      exact ⟨fun p hp => by rw [rsGo_cons_struct hs]; exact key,
             by rw [rsGo_cons_struct hs]; exact key⟩
    · have hs' : isStructural c = false := by simpa using hs
      by_cases hsp : pyIsSpace c
      · refine ⟨fun p hp => ?_, ?_⟩
        · rw [rsGo_cons_space_false hs' hsp]
          exact ihf (p ++ [c]) (by
            intro x hx
            rcases List.mem_append.mp hx with h | h
            · exact hp x h
            · simp at h; rw [h]; exact hsp)
        · rw [rsGo_cons_space_true hs' hsp]
          exact iht
      · have hsp' : pyIsSpace c = false := by simpa using hsp
        have key : List.Chain' noSpaceAfterStruct (c :: rsGo false [] cs) :=
          List.chain'_cons'.mpr ⟨fun y _ hstr => by rw [hs'] at hstr; simp at hstr,
            ihf [] (by simp)⟩
        refine ⟨fun p hp => ?_, ?_⟩
        · rw [rsGo_cons_plain hs' hsp']
          exact List.chain'_append.mpr ⟨chain_spaces hp, key,
            fun x hx y _ hstr => by
              rw [space_not_struct (hp x (List.mem_of_mem_getLast? hx))] at hstr
              exact absurd hstr (by simp)⟩
        · rw [rsGo_cons_plain hs' hsp', List.nil_append]
          exact key

theorem minifiedStripped_chain (l : List Char) :
    List.Chain' noSpaceAfterStruct (minifiedStripped l) :=
  List.Chain'.infix ((rsGo_chain _).1 [] (by simp)) (strip_infix_self _)

theorem pyStrip_preBody (l : List Char) : pyStrip (preBody l) = preBody l := by
  unfold preBody
  split_ifs with h
  · obtain ⟨t, ht⟩ := List.isPrefixOf_iff_prefix.mp h
    rw [← ht, show (11 : Nat) = jsPrefix.length from rfl, List.drop_left]
    apply pyStrip_eq_self
    · intro c hc
      have hch : List.Chain' noSpaceAfterStruct (jsPrefix ++ t) :=
        ht ▸ minifiedStripped_chain l
      have hb := (List.chain'_append.mp hch).2.2
      exact hb ':' (by decide) c hc (by decide)
    · intro c hc
      have hlast : (pyStrip (minified4 l)).getLast? = some c := by
        have : minifiedStripped l = jsPrefix ++ t := ht.symm
        show (minifiedStripped l).getLast? = some c
        rw [this, List.getLast?_append]
        have : t.getLast? = some c := hc
        rw [this]
        rfl
      exact getLast_pyStrip_not_space (minified4 l) c hlast
  · exact pyStrip_idem (minified4 l)

theorem pyStrip_wrap (x : List Char) :
    pyStrip (wrapPre ++ x ++ wrapPost) = wrapPre ++ x ++ wrapPost := by
  apply pyStrip_eq_self
  · intro c hc
    have hh : (wrapPre ++ x ++ wrapPost).head? = some 'v' := rfl
    rw [hh] at hc
    have : 'v' = c := by simpa using hc
    rw [← this]; decide
  · intro c hc
    have hh : (wrapPre ++ x ++ wrapPost).getLast? = some ')' := by
      rw [List.getLast?_append, show wrapPost.getLast? = some ')' from rfl]
      rfl
    rw [hh] at hc
    have : ')' = c := by simpa using hc
    rw [← this]; decide

/-! ## The claims -/

/-- C1: for every source text `s` and every boolean `wrap`, the string
returned by `minify_code` starts with the literal 11-character prefix
`javascript:`. -/
theorem claim_C1 (s : String) (w : Bool) :
    "javascript:".toList <+: (minify_code s w).data := by
  unfold minify_code minifyCore
  rw [mk_data]
  exact List.prefix_append _ _

/-- C2, counterexample to the claim as stated: `X = "//a"` does not
start with `javascript:` (neither raw, nor whitespace-stripped, nor
after minification and stripping), yet prepending `javascript:` changes
the encoding: the prefix's colon defeats the comment lookbehind, so the
two slashes survive instead of being stripped as a comment. -/
theorem claim_C2_counterexample :
    ¬ jsPrefix <+: minifiedStripped "//a".data ∧
    ¬ jsPrefix <+: pyStrip "//a".data ∧
    minify_code ("javascript:" ++ "//a") false ≠ minify_code "//a" false := by
  refine ⟨by decide, by decide, by decide⟩

/-- C2, amended: prefix-handling idempotence holds for every source `X`
that does not begin with two slashes and whose minified, stripped form
does not itself start with `javascript:`:
`minify_code ("javascript:" ++ X) w = minify_code X w`. -/
theorem claim_C2 (X : String) (w : Bool) (h1 : ¬ ['/', '/'] <+: X.data)
    (h2 : ¬ jsPrefix <+: minifiedStripped X.data) :
    minify_code ("javascript:" ++ X) w = minify_code X w := by
  unfold minify_code
  congr 1
  have e : ("javascript:" ++ X).data = jsPrefix ++ X.data := by
    rw [String.data_append]; rfl
  rw [e]
  unfold minifyCore minBody
  rw [preBody_js X.data h1 h2]

theorem claim_C2_witness :
    (¬ ['/', '/'] <+: "x".data) ∧ (¬ jsPrefix <+: minifiedStripped "x".data) ∧
    minify_code ("javascript:" ++ "x") false = minify_code "x" false :=
  ⟨by decide, by decide, claim_C2 "x" false (by decide) (by decide)⟩

/-- C3: percent-decoding the output of `minify_code s true` and
stripping the `javascript:` prefix yields exactly `void((function()`,
an opening brace, the percent-decoded prefix-stripped body of
`minify_code s false`, a closing brace, and `)())`. -/
theorem claim_C3 (s : String) :
    decodedBody (minify_code s true) =
      "void((function()\x7b".toList ++ decodedBody (minify_code s false) ++
        "\x7d)())".toList := by
  rw [decodedBody_minify, decodedBody_minify]
  show pyStrip (wrapPre ++ preBody s.data ++ wrapPost) =
    wrapPre ++ pyStrip (preBody s.data) ++ wrapPost
  rw [pyStrip_preBody, pyStrip_wrap]

/-- C4: the safe-character set equals exactly the ASCII characters with
codepoints 33 through 126 inclusive, minus `%`, space and `#`. -/
theorem claim_C4 (c : Char) : c ∈ SAFE_CHARS ↔
    (33 ≤ c.toNat ∧ c.toNat ≤ 126 ∧ c ≠ '%' ∧ c ≠ ' ' ∧ c ≠ '#') := by
  rw [mem_SAFE_CHARS_iff_toNat, SAFE_CHARS_toNat,
      char_ne_iff_toNat_ne, char_ne_iff_toNat_ne, char_ne_iff_toNat_ne,
      show ('%').toNat = 37 from rfl, show (' ').toNat = 32 from rfl,
      show ('#').toNat = 35 from rfl]
  simp only [List.mem_cons, List.not_mem_nil, or_false]
  omega

theorem claim_C4_witness :
    33 ≤ ('a').toNat ∧ ('a').toNat ≤ 126 ∧ ('a') ≠ '%' ∧ ('a') ≠ ' ' ∧
      ('a') ≠ '#' :=
  (claim_C4 'a').mp (by decide)

/-- C5: empty input: `minify_code "" true` is exactly
`javascript:void((function()`, brace pair, `)())` (every character of
the wrapped empty body is in the safe set, so it is its own
percent-encoding, and its decoded body is the wrapped empty body), and
`minify_code "" false` is exactly `javascript:`. -/
theorem claim_C5 :
    minify_code "" true = "javascript:void((function()\x7b\x7d)())" ∧
    decodedBody (minify_code "" true) = "void((function()\x7b\x7d)())".toList ∧
    minify_code "" false = "javascript:" := by
  refine ⟨by decide, by decide, by decide⟩

/-- C6: the comment-stripping heuristic: a trailing `// c` comment is
removed (same decoded body as the input without it), while
`https://x.com` inside a string survives verbatim because its two
slashes are directly preceded by a colon. -/
theorem claim_C6 :
    decodedBody (minify_code "var x=1; // c" false) =
      decodedBody (minify_code "var x=1;" false) ∧
    "https://x.com".toList <:+:
      decodedBody (minify_code "var u=\"https://x.com\";" false) :=
  ⟨by decide, "var u=\"".toList, "\";".toList, by decide⟩

/-- C7: concrete minification scenarios: non-greedy multi-line comment
removal with whitespace collapse, and whitespace deletion around
structural punctuation. -/
theorem claim_C7 :
    decodedBody (minify_code "var x = 1; /* c */ var y = 2;" false) =
      "var x=1;var y=2;".toList ∧
    decodedBody (minify_code "if ( x == 1 ) \x7b y = 2; \x7d" false) =
      "if(x==1)\x7by=2;\x7d".toList := by
  refine ⟨by decide, by decide⟩

/-- C8: escaping discipline: the output is the prefix followed by the
minified body encoded character by character, where a character in the
safe set stands for itself (never percent-escaped) and any other
character (in particular `#`, space and `%`) becomes the uppercase-hex
`%XX` escapes of its UTF-8 bytes; `#` becomes `%23` and space `%20`. -/
theorem claim_C8 (s : String) (w : Bool) :
    (minify_code s w).data =
      jsPrefix ++ ((minBody s.data w).map escC).flatten ∧
    (∀ c ∈ SAFE_CHARS, escC c = [c]) ∧
    escC '#' = "%23".toList ∧ escC ' ' = "%20".toList ∧
    escC '%' = "%25".toList ∧
    (∀ c, c ∉ SAFE_CHARS → escC c = ((utf8Bytes c).map escByte).flatten) := by
  refine ⟨?_, ?_, by decide, by decide, by decide, ?_⟩
  · unfold minify_code minifyCore
    rw [mk_data, pyQuote_escC]
  · intro c hc
    unfold escC
    rw [if_pos (List.elem_iff.mpr hc)]
  · intro c hc
    unfold escC
    rw [if_neg (fun hh => hc (List.elem_iff.mp hh))]

theorem claim_C8_witness :
    (minify_code "x" false).data =
      jsPrefix ++ ((minBody "x".data false).map escC).flatten ∧
    escC 'a' = ['a'] :=
  ⟨(claim_C8 "x" false).1, (claim_C8 "x" false).2.1 'a' (by decide)⟩

/-- C9: the encoder is total and deterministic: for every input string
and wrap flag it returns a string, and any invocation on equal inputs
returns that same string. Totality is witnessed by `minify_code` being
a Lean function (all its scanners are structurally recursive total
functions over arbitrary character lists). -/
theorem claim_C9 (s : String) (w : Bool) :
    ∃ out : String, minify_code s w = out ∧
      ∀ (s' : String) (w' : Bool), s' = s → w' = w → minify_code s' w' = out :=
  ⟨minify_code s w, rfl, fun s' w' hs hw => by rw [hs, hw]⟩

theorem claim_C9_witness :
    ∃ out : String, minify_code "a" true = out ∧ minify_code "a" true = out := by
  obtain ⟨out, h1, h2⟩ := claim_C9 "a" true
  exact ⟨out, h1, h2 "a" true rfl rfl⟩

/-- C10: when syntax checking is requested and validation of the
encoded body fails, `minify_bookmarklet` exits with status 1 and the
output file is never opened, so its prior contents are unchanged. -/
theorem claim_C10 (js : String) (w : Bool) (chk : String → Bool)
    (hfail : chk (codeToCheck (minify_code js w)) = false) :
    minify_bookmarklet (.ok js) true w chk = ⟨some 1, none⟩ := by
  unfold minify_bookmarklet
  simp only [hfail]
  rfl

theorem claim_C10_witness :
    minify_bookmarklet (.ok "x") true true (fun _ => false) = ⟨some 1, none⟩ :=
  claim_C10 "x" true (fun _ => false) rfl
